import Mathlib

/-!
Shallow embedding of the `compress` repository (Go): the channel-based
stream pipeline in `src/stream/stream.go` and the sequential slice
wrapper `Compress` in `src/compress.go` / `src/unnamed/part_000`.

For a purely sequential chain of stream stages (source, Filter, Map,
FlatMap, Limit), each stage's goroutine deterministically emits a finite
sequence of elements on its output channel before closing it; we model a
stage by the list of elements it emits, translating each goroutine's loop
directly.  The `Parallel` stage is concurrent: it is modelled by a merge
relation `IsMerge` describing how racing workers split the input channel's
sequence and interleave their forwards on the shared output channel.
-/

namespace StreamGo

/-- Source stage (`NewStream`, src/stream/stream.go lines 9-18): the
producer goroutine sends each element of `data` in order, then closes
the channel.  The emitted sequence is `data` itself. -/
def NewStream {α : Type} (data : List α) : List α :=
  data

/-- Loop body of the `Filter` goroutine (lines 22-29): for each item read
from the input channel, forward it iff `predicate item` is true. -/
def filterLoop {α : Type} (predicate : α → Bool) : List α → List α
  | [] => []
  | item :: rest =>
      if predicate item then item :: filterLoop predicate rest
      else filterLoop predicate rest

/-- `Filter` stage (src/stream/stream.go lines 20-31). -/
def Filter {α : Type} (s : List α) (predicate : α → Bool) : List α :=
  filterLoop predicate s

/-- Loop body of the `Map` goroutine (lines 35-41): forward
`predicate item` for each item. -/
def mapLoop {α : Type} (predicate : α → α) : List α → List α
  | [] => []
  | item :: rest => predicate item :: mapLoop predicate rest

/-- `Map` stage (src/stream/stream.go lines 33-43). -/
def Map {α : Type} (s : List α) (predicate : α → α) : List α :=
  mapLoop predicate s

/-- Loop body of the `FlatMap` goroutine (lines 47-53): for each item,
forward every element of `transform item` in order. -/
def flatMapLoop {α : Type} (transform : α → List α) : List α → List α
  | [] => []
  | item :: rest => transform item ++ flatMapLoop transform rest

/-- `FlatMap` stage (src/stream/stream.go lines 45-56). -/
def FlatMap {α : Type} (s : List α) (transform : α → List α) : List α :=
  flatMapLoop transform s

/-- Loop of `Reduce` (lines 61-63): on every iteration the code assigns
`result = reduce(inital, item)`, i.e. it recombines against the fixed
initial value, not the running accumulator. -/
def reduceLoop {α : Type} (inital : α) (reduce : α → α → α) :
    α → List α → α
  | result, [] => result
  | _result, item :: rest => reduceLoop inital reduce (reduce inital item) rest

/-- Terminal `Reduce` (src/stream/stream.go lines 58-65). -/
def Reduce {α : Type} (s : List α) (inital : α) (reduce : α → α → α) : α :=
  reduceLoop inital reduce inital s

/-- Loop body of the `Limit` goroutine (lines 71-78): `count` starts at 0;
each iteration breaks when `count >= n`, otherwise forwards the item and
increments `count`.  `n` is a Go `int`, modelled as `Int`. -/
def limitLoop {α : Type} (n : Int) : Nat → List α → List α
  | _count, [] => []
  | count, item :: rest =>
      if (count : Int) ≥ n then []
      else item :: limitLoop n (count + 1) rest

/-- `Limit` stage (src/stream/stream.go lines 67-81). -/
def Limit {α : Type} (s : List α) (n : Int) : List α :=
  limitLoop n 0 s

/-- Terminal `Collect` (src/stream/stream.go lines 102-108): drains the
final channel into a slice in receive order. -/
def Collect {α : Type} (s : List α) : List α :=
  s

/-- `IsMerge parts out`: the sequence `out` is an interleaving of the
sequences `parts`, each part consumed in its own order.  This is the
channel semantics used twice by `Parallel` (lines 83-100): the input
channel's sequence is split among the racing workers as such an
interleaving (each element is received by exactly one worker, and each
worker sees its share in channel order), and the shared output channel
receives an interleaving of the workers' forwarded sequences. -/
inductive IsMerge {α : Type} : List (List α) → List α → Prop where
  | done (parts : List (List α)) (h : ∀ l ∈ parts, l = []) :
      IsMerge parts []
  | step (parts : List (List α)) (i : Fin parts.length) (x : α)
      (rest out : List α) (hget : parts.get i = x :: rest)
      (htail : IsMerge (parts.set i rest) out) :
      IsMerge parts (x :: out)

/-- `Parallel` stage (src/stream/stream.go lines 83-100), as a relation
between the input sequence `s`, the worker count, and a possible output
sequence `out`: `workers` goroutines split `s` among themselves and race
to forward their shares to the shared output channel, which is closed
after all of them finish. -/
def Parallel {α : Type} (s : List α) (workers : Nat) (out : List α) : Prop :=
  ∃ parts : List (List α),
    parts.length = workers ∧ IsMerge parts s ∧ IsMerge parts out

end StreamGo

namespace CompressGo

/-- The sequential wrapper (src/compress.go lines 9-11 and
src/unnamed/part_000 lines 9-11): a generic slice.  Go's zero value for
the element type is modelled by `default` of an `Inhabited` instance. -/
structure Compress (α : Type) where
  data : List α

/-- `New` (src/compress.go lines 14-19). -/
def New {α : Type} (data : List α) : Compress α :=
  ⟨data⟩

/-- `At` (src/compress.go lines 58-70): clamps the index into
`[0, len-1]`, high bound first, then low; returns the zero value on an
empty slice.  The index is a Go `int`, modelled as `Int`. -/
def At {α : Type} [Inhabited α] (c : Compress α) (index : Int) : α :=
  if c.data.length = 0 then default
  else
    let i1 : Int := if index ≥ (c.data.length : Int)
      then (c.data.length : Int) - 1 else index
    let i2 : Int := if i1 < 0 then 0 else i1
    c.data.getD i2.toNat default

/-- `Head` (src/compress.go lines 74-80). -/
def Head {α : Type} [Inhabited α] (c : Compress α) : α :=
  if c.data.length = 0 then default else c.data.headD default

/-- `Tail` (src/compress.go lines 82-88): returns the last element. -/
def Tail {α : Type} [Inhabited α] (c : Compress α) : α :=
  if c.data.length = 0 then default
  else c.data.getD (c.data.length - 1) default

/-- `Pop` (src/compress.go lines 92-101): removes and returns the last
element; Go mutation of the receiver is modelled by also returning the
updated `Compress`. -/
def Pop {α : Type} [Inhabited α] (c : Compress α) : α × Compress α :=
  if c.data.length = 0 then (default, c)
  else (c.data.getD (c.data.length - 1) default, ⟨c.data.dropLast⟩)

/-- `Shift` (src/compress.go lines 105-113): removes and returns the
first element. -/
def Shift {α : Type} [Inhabited α] (c : Compress α) : α × Compress α :=
  if c.data.length = 0 then (default, c)
  else (c.data.headD default, ⟨c.data.tail⟩)

/-- Loop of `Find` (src/compress.go lines 174-178): first element
satisfying the predicate, else the zero value. -/
def findLoop {α : Type} [Inhabited α] (predicate : α → Bool) : List α → α
  | [] => default
  | e :: rest => if predicate e then e else findLoop predicate rest

/-- `Find` (src/compress.go lines 169-180). -/
def Find {α : Type} [Inhabited α] (c : Compress α)
    (predicate : α → Bool) : α :=
  if c.data.length = 0 then default else findLoop predicate c.data

/-- Loop of `Limit` (src/unnamed/part_000 lines 198-205): appends at most
the first `n` items of the data onto an accumulator; `count` starts at 0
and the loop breaks once `count >= n`. -/
def limitAppendLoop {α : Type} (n : Int) : Nat → List α → List α
  | _count, [] => []
  | count, item :: rest =>
      if (count : Int) ≥ n then []
      else item :: limitAppendLoop n (count + 1) rest

/-- `Limit` (src/unnamed/part_000 lines 193-207): on non-empty data the
result slice is created by `make([]T, len(c.data))` — length `len`
filled with zero values — and the kept items are appended after it. -/
def Limit {α : Type} [Inhabited α] (c : Compress α) (n : Int) : Compress α :=
  if c.data.length = 0 then c
  else ⟨List.replicate c.data.length default ++ limitAppendLoop n 0 c.data⟩

/-- Loop of `FlatMap` (src/unnamed/part_000 lines 53-57): Go's
`range c.data` iterates over the slice captured at loop entry, while each
transformed element is appended to the (growing) data; so the loop visits
exactly the original elements.  `orig` is the captured snapshot, `acc`
the growing slice. -/
def flatMapAppendLoop {α : Type} (transform : α → List α) :
    List α → List α → List α
  | acc, [] => acc
  | acc, item :: rest => flatMapAppendLoop transform (acc ++ transform item) rest

/-- `FlatMap` (src/unnamed/part_000 lines 49-60): mutates the data in
place by appending every expansion after the original elements. -/
def FlatMap {α : Type} (c : Compress α) (transform : α → List α) :
    Compress α :=
  if c.data.length = 0 then c
  else ⟨flatMapAppendLoop transform c.data c.data⟩

/-- `Collect` (src/unnamed/part_000 lines 210-212): returns the data. -/
def Collect {α : Type} (c : Compress α) : List α :=
  c.data

end CompressGo

/-! ### Helper lemmas relating the translated loops to standard list functions -/

lemma filterLoop_eq_filter {α : Type} (p : α → Bool) :
    ∀ l : List α, StreamGo.filterLoop p l = l.filter p
  | [] => rfl
  | x :: xs => by
      rw [StreamGo.filterLoop, List.filter_cons]
      cases h : p x <;> simp [h, filterLoop_eq_filter p xs]

lemma mapLoop_eq_map {α : Type} (f : α → α) :
    ∀ l : List α, StreamGo.mapLoop f l = l.map f
  | [] => rfl
  | x :: xs => by
      rw [StreamGo.mapLoop, List.map_cons, mapLoop_eq_map f xs]

lemma flatMapLoop_eq_flatMap {α : Type} (f : α → List α) :
    ∀ l : List α, StreamGo.flatMapLoop f l = l.flatMap f
  | [] => rfl
  | x :: xs => by
      rw [StreamGo.flatMapLoop, List.flatMap_cons, flatMapLoop_eq_flatMap f xs]

lemma reduceLoop_ne_nil {α : Type} (inital : α) (combine : α → α → α) :
    ∀ (l : List α) (r : α) (h : l ≠ []),
      StreamGo.reduceLoop inital combine r l = combine inital (l.getLast h)
  | [], _, h => absurd rfl h
  | [_x], _, _ => rfl
  | x :: y :: rest, r, _ => by
      rw [StreamGo.reduceLoop,
        reduceLoop_ne_nil inital combine (y :: rest) _ (by simp),
        List.getLast_cons (by simp : y :: rest ≠ [])]

lemma limitLoop_eq_take {α : Type} (n : Int) :
    ∀ (l : List α) (count : Nat),
      StreamGo.limitLoop n count l = l.take (n - count).toNat
  | [], _ => by simp [StreamGo.limitLoop]
  | x :: xs, count => by
      rw [StreamGo.limitLoop]
      by_cases h : (count : Int) ≥ n
      · rw [if_pos h]
        have h0 : (n - count).toNat = 0 := by omega
        simp [h0]
      · rw [if_neg h, limitLoop_eq_take n xs (count + 1)]
        have h1 : (n - ((count : Nat) + 1 : Nat)).toNat = (n - count).toNat - 1 := by
          push_cast
          omega
        rw [h1]
        cases hnc : (n - count).toNat with
        | zero => omega
        | succ m => simp

/-! ### Claim theorems for the sequential stream stages -/

/-- Claim C1: the stream terminal `Reduce(initial, combine)` over a
sequential chain delivering `e1..ek` returns `combine(initial, ek)` when
`k ≥ 1` (combine is recomputed against the fixed initial value every
step) and `initial` when `k = 0`; concretely `reduce(0, +)` over
`[1..10]` returns 10. -/
theorem reduce_combines_fixed_initial_with_last {α : Type}
    (inital : α) (combine : α → α → α) (s : List α) :
    (s = [] → StreamGo.Reduce (StreamGo.NewStream s) inital combine = inital)
    ∧ (∀ h : s ≠ [],
        StreamGo.Reduce (StreamGo.NewStream s) inital combine
          = combine inital (s.getLast h))
    ∧ StreamGo.Reduce (StreamGo.NewStream [1, 2, 3, 4, 5, 6, 7, 8, 9, 10])
        (0 : Int) (· + ·) = 10 := by
  refine ⟨fun h => by subst h; rfl, fun h => ?_, by decide⟩
  exact reduceLoop_ne_nil inital combine s inital h

/-- Witness for C1 at the concrete input `[5, 6, 7]` with `initial = 0`
and `combine = +`. -/
theorem reduce_combines_fixed_initial_with_last_witness :
    StreamGo.Reduce (StreamGo.NewStream [5, 6, 7]) (0 : Int) (· + ·) = 7 := by
  have h := (reduce_combines_fixed_initial_with_last (0 : Int) (· + ·)
    [5, 6, 7]).2.1 (by decide)
  simpa using h

/-- Claim C2: `Collect` after `Filter(P)` over `NewStream(S)` returns
exactly the sub-sequence of elements of `S` satisfying `P`, in the
original order. -/
theorem collect_filter_eq_filter {α : Type} (S : List α) (P : α → Bool) :
    StreamGo.Collect (StreamGo.Filter (StreamGo.NewStream S) P)
      = S.filter P :=
  filterLoop_eq_filter P S

/-- Claim C3: `Collect` after `Limit(n)` over `NewStream(S)` returns the
first `min(n, len(S))` elements of `S` when `n ≥ 0`, and the empty
sequence when `n` is negative or zero. -/
theorem collect_limit_eq_take {α : Type} (S : List α) (n : Int) :
    (0 ≤ n → StreamGo.Collect (StreamGo.Limit (StreamGo.NewStream S) n)
        = S.take n.toNat)
    ∧ (n ≤ 0 → StreamGo.Collect (StreamGo.Limit (StreamGo.NewStream S) n)
        = []) := by
  constructor
  · intro _
    have h := limitLoop_eq_take n S 0
    simpa [StreamGo.Collect, StreamGo.Limit, StreamGo.NewStream] using h
  · intro hn
    have h := limitLoop_eq_take n S 0
    have h0 : (n - (0 : Nat)).toNat = 0 := by omega
    rw [h0] at h
    simpa [StreamGo.Collect, StreamGo.Limit, StreamGo.NewStream] using h

/-- Witness for C3 at `S = [1,2,3]` with `n = 2` and `n = -1`. -/
theorem collect_limit_eq_take_witness :
    StreamGo.Collect (StreamGo.Limit (StreamGo.NewStream [1, 2, 3]) 2)
      = ([1, 2] : List Int)
    ∧ StreamGo.Collect (StreamGo.Limit (StreamGo.NewStream [1, 2, 3]) (-1))
      = ([] : List Int) := by
  constructor
  · have h := (collect_limit_eq_take ([1, 2, 3] : List Int) 2).1 (by decide)
    simpa using h
  · exact (collect_limit_eq_take ([1, 2, 3] : List Int) (-1)).2 (by decide)

/-- Claim C4: `Collect` after `FlatMap(f)` over `NewStream([x1..xk])`
returns `f(x1) ++ f(x2) ++ ... ++ f(xk)`: each expansion in order,
within and across inputs. -/
theorem collect_flatMap_eq_flatMap {α : Type} (S : List α) (f : α → List α) :
    StreamGo.Collect (StreamGo.FlatMap (StreamGo.NewStream S) f)
      = S.flatMap f :=
  flatMapLoop_eq_flatMap f S

/-- Claim C5: `Collect` after `Map(F)` over `NewStream(S)` has the same
length as `S` and its element at every index `i` is `F(S[i])`. -/
theorem collect_map_pointwise {α : Type} (S : List α) (F : α → α) :
    (StreamGo.Collect (StreamGo.Map (StreamGo.NewStream S) F)).length
      = S.length
    ∧ ∀ i : Nat,
        (StreamGo.Collect (StreamGo.Map (StreamGo.NewStream S) F))[i]?
          = (S[i]?).map F := by
  have h := mapLoop_eq_map F S
  constructor
  · simp [StreamGo.Collect, StreamGo.Map, StreamGo.NewStream, h]
  · intro i
    simp [StreamGo.Collect, StreamGo.Map, StreamGo.NewStream, h]

/-- Claim C7: filtering is idempotent on content: a second `Filter(P)`
leaves the collected result unchanged, and filtering a stream all of
whose elements already satisfy `P` leaves the content unchanged. -/
theorem filter_idempotent_on_content {α : Type} (S : List α) (P : α → Bool) :
    StreamGo.Collect (StreamGo.Filter
        (StreamGo.Filter (StreamGo.NewStream S) P) P)
      = StreamGo.Collect (StreamGo.Filter (StreamGo.NewStream S) P)
    ∧ ((∀ x ∈ S, P x = true)
        → StreamGo.Collect (StreamGo.Filter (StreamGo.NewStream S) P) = S) := by
  constructor
  · simp [StreamGo.Collect, StreamGo.Filter, StreamGo.NewStream,
      filterLoop_eq_filter, List.filter_filter]
  · intro hall
    simp only [StreamGo.Collect, StreamGo.Filter, StreamGo.NewStream,
      filterLoop_eq_filter]
    exact List.filter_eq_self.mpr hall

/-- Witness for C7 at `S = [1, 2]` with the always-true predicate. -/
theorem filter_idempotent_on_content_witness :
    StreamGo.Collect (StreamGo.Filter (StreamGo.NewStream [1, 2])
      (fun _ => true)) = ([1, 2] : List Int) :=
  (filter_idempotent_on_content ([1, 2] : List Int) (fun _ => true)).2
    (by simp)

/-! ### Helper lemmas for the Compress wrapper -/

lemma limitAppendLoop_eq_take {α : Type} (n : Int) :
    ∀ (l : List α) (count : Nat),
      CompressGo.limitAppendLoop n count l = l.take (n - count).toNat
  | [], _ => by simp [CompressGo.limitAppendLoop]
  | x :: xs, count => by
      rw [CompressGo.limitAppendLoop]
      by_cases h : (count : Int) ≥ n
      · rw [if_pos h]
        have h0 : (n - count).toNat = 0 := by omega
        simp [h0]
      · rw [if_neg h, limitAppendLoop_eq_take n xs (count + 1)]
        have h1 : (n - ((count : Nat) + 1 : Nat)).toNat = (n - count).toNat - 1 := by
          push_cast
          omega
        rw [h1]
        cases hnc : (n - count).toNat with
        | zero => omega
        | succ m => simp

lemma flatMapAppendLoop_eq_append_flatMap {α : Type} (f : α → List α) :
    ∀ (orig acc : List α),
      CompressGo.flatMapAppendLoop f acc orig = acc ++ orig.flatMap f
  | [], acc => by simp [CompressGo.flatMapAppendLoop]
  | x :: xs, acc => by
      rw [CompressGo.flatMapAppendLoop,
        flatMapAppendLoop_eq_append_flatMap f xs (acc ++ f x)]
      simp [List.flatMap_cons]

/-! ### Claim theorems for the Compress wrapper -/

/-- Claim C8: bounds-related edge cases in the sequential `Compress`
wrapper never signal failure: on non-empty data `At i` returns the
element at `i` clamped into `[0, len-1]`; on empty data `At`, `Head`,
`Tail`, `Pop`, `Shift` and `Find` each return the zero value. -/
theorem bounds_edge_cases_return_clamped_or_zero {α : Type} [Inhabited α]
    (c : CompressGo.Compress α) (i : Int) :
    (c.data ≠ [] →
      CompressGo.At c i
        = c.data.getD (max 0 (min i ((c.data.length : Int) - 1))).toNat default)
    ∧ (c.data = [] →
        CompressGo.At c i = default
        ∧ CompressGo.Head c = default
        ∧ CompressGo.Tail c = default
        ∧ (CompressGo.Pop c).1 = default
        ∧ (CompressGo.Shift c).1 = default
        ∧ ∀ p : α → Bool, CompressGo.Find c p = default) := by
  constructor
  · intro hne
    have hL : ¬ c.data.length = 0 := fun h => hne (List.length_eq_zero.mp h)
    simp only [CompressGo.At, hL, if_false]
    split_ifs <;> congr 1 <;> omega
  · intro hemp
    refine ⟨?_, ?_, ?_, ?_, ?_, ?_⟩ <;>
      simp [CompressGo.At, CompressGo.Head, CompressGo.Tail, CompressGo.Pop,
        CompressGo.Shift, CompressGo.Find, hemp]

/-- Witness for C8: `At 9` on data `[5, 7]` clamps to the last element,
and `Head` on empty data is the zero value. -/
theorem bounds_edge_cases_return_clamped_or_zero_witness :
    CompressGo.At (⟨[5, 7]⟩ : CompressGo.Compress Int) 9 = 7
    ∧ CompressGo.Head (⟨[]⟩ : CompressGo.Compress Int) = 0 := by
  constructor
  · have h := (@bounds_edge_cases_return_clamped_or_zero Int _ ⟨[5, 7]⟩ 9).1
      (by decide)
    rw [h]
    decide
  · have h := (@bounds_edge_cases_return_clamped_or_zero Int _ ⟨[]⟩ 0).2 rfl
    simpa using h.2.1

/-- Claim C9: for non-empty data of length `L` and `n ≥ 0`,
`c.Limit(n).Collect()` is `L` zero values followed by the first
`min(n, L)` elements of the data (the result slice is pre-sized to
length `L` before elements are appended), so its length is
`L + min(n, L)`. -/
theorem limit_prepends_zero_block {α : Type} [Inhabited α]
    (c : CompressGo.Compress α) (n : Int)
    (hne : c.data ≠ []) (hn : 0 ≤ n) :
    CompressGo.Collect (CompressGo.Limit c n)
      = List.replicate c.data.length default ++ c.data.take n.toNat
    ∧ (CompressGo.Collect (CompressGo.Limit c n)).length
      = c.data.length + min n.toNat c.data.length := by
  have hL : ¬ c.data.length = 0 := fun h => hne (List.length_eq_zero.mp h)
  have hloop := limitAppendLoop_eq_take n c.data 0
  have h0 : (n - (0 : Nat)).toNat = n.toNat := by omega
  rw [h0] at hloop
  constructor
  · simp [CompressGo.Collect, CompressGo.Limit, hL, hloop]
  · simp [CompressGo.Collect, CompressGo.Limit, hL, hloop]

/-- Witness for C9 at data `[1, 2, 3]` with `n = 2`: the collected slice
is `[0, 0, 0, 1, 2]` of length `3 + min 2 3`. -/
theorem limit_prepends_zero_block_witness :
    CompressGo.Collect (CompressGo.Limit
        (⟨[1, 2, 3]⟩ : CompressGo.Compress Int) 2)
      = [0, 0, 0, 1, 2]
    ∧ (CompressGo.Collect (CompressGo.Limit
        (⟨[1, 2, 3]⟩ : CompressGo.Compress Int) 2)).length = 5 := by
  have h := @limit_prepends_zero_block Int _ ⟨[1, 2, 3]⟩ 2 (by decide) (by decide)
  exact ⟨by rw [h.1]; rfl, by rw [h.2]; decide⟩

/-- Claim C10: `FlatMap(f)` on non-empty data `[x1..xk]` leaves the
original elements in place and appends the concatenation
`f(x1) ++ ... ++ f(xk)` after them; the loop covers only the original
`k` elements even though the data grows during it. -/
theorem flatMap_appends_expansions_after_originals {α : Type}
    (c : CompressGo.Compress α) (f : α → List α) (hne : c.data ≠ []) :
    CompressGo.Collect (CompressGo.FlatMap c f)
      = c.data ++ c.data.flatMap f := by
  have hL : ¬ c.data.length = 0 := fun h => hne (List.length_eq_zero.mp h)
  simp [CompressGo.FlatMap, CompressGo.Collect, hL,
    flatMapAppendLoop_eq_append_flatMap f c.data c.data]

/-- Witness for C10 at data `[1, 2]` with `f x = [x, 10 * x]`. -/
theorem flatMap_appends_expansions_after_originals_witness :
    CompressGo.Collect (CompressGo.FlatMap
        (⟨[1, 2]⟩ : CompressGo.Compress Int) (fun x => [x, 10 * x]))
      = [1, 2, 1, 10, 2, 20] := by
  have h := flatMap_appends_expansions_after_originals
    (⟨[1, 2]⟩ : CompressGo.Compress Int) (fun x => [x, 10 * x]) (by decide)
  rw [h]
  rfl


/-! ### Helper lemmas for the Parallel merge relation -/

lemma merge_msum_set {α : Type} :
    ∀ (parts : List (List α)) (i : Nat) (x : α) (rest : List α),
      parts.get? i = some (x :: rest) →
      (parts.map Multiset.ofList).sum
        = x ::ₘ ((parts.set i rest).map Multiset.ofList).sum
  | [], i, x, rest, h => by simp at h
  | p :: ps, 0, x, rest, h => by
      rw [List.get?_cons_zero] at h
      injection h with h
      subst h
      simp only [List.set_cons_zero, List.map_cons, List.sum_cons]
      rw [← Multiset.cons_coe, Multiset.cons_add]
  | p :: ps, i + 1, x, rest, h => by
      rw [List.get?_cons_succ] at h
      simp only [List.set_cons_succ, List.map_cons, List.sum_cons]
      rw [merge_msum_set ps i x rest h, ← Multiset.singleton_add,
        ← Multiset.singleton_add, add_left_comm]

lemma isMerge_multiset {α : Type} {parts : List (List α)} {out : List α}
    (hm : StreamGo.IsMerge parts out) :
    Multiset.ofList out = (parts.map Multiset.ofList).sum := by
  induction hm with
  | done parts h =>
      symm
      apply List.sum_eq_zero
      intro m hmem
      obtain ⟨l, hl, rfl⟩ := List.mem_map.mp hmem
      rw [h l hl]
      rfl
  | step parts i x rest out hget htail ih =>
      have hq : parts.get? (i : Nat) = some (x :: rest) := by
        rw [List.get?_eq_get i.isLt]
        exact congrArg some hget
      rw [← Multiset.cons_coe, ih, merge_msum_set parts (i : Nat) x rest hq]

lemma isMerge_singleton {α : Type} {parts : List (List α)} {out : List α}
    (hm : StreamGo.IsMerge parts out) :
    ∀ l, parts = [l] → out = l := by
  induction hm with
  | done parts h =>
      intro l hl
      subst hl
      exact (h l (by simp)).symm
  | step parts i x rest out hget htail ih =>
      intro l hl
      subst hl
      obtain ⟨iv, hlt⟩ := i
      have hlt1 : iv < 1 := by simpa using hlt
      have hiv : iv = 0 := by omega
      subst hiv
      have hl2 : l = x :: rest := by simpa using hget
      have hout : out = rest := ih rest (by simp)
      rw [hout, hl2]

/-! ### Claim theorem for the Parallel stage -/

/-- Claim C6: for every finite sequence `S` and worker count `K ≥ 1`, any
possible result of `Collect` after `Parallel(K)` over `NewStream(S)` is a
permutation of `S` (the same multiset: nothing dropped or duplicated),
and for `K = 1` the result is exactly `S` in its original order. -/
theorem parallel_permutes_and_single_worker_preserves_order {α : Type}
    (S out : List α) (K : Nat) (hK : 1 ≤ K)
    (hrun : StreamGo.Parallel (StreamGo.NewStream S) K out) :
    Multiset.ofList (StreamGo.Collect out) = Multiset.ofList S
    ∧ (K = 1 → StreamGo.Collect out = S) := by
  obtain ⟨parts, hlen, hin, hout⟩ := hrun
  constructor
  · rw [StreamGo.Collect, isMerge_multiset hout, ← isMerge_multiset hin]
    rfl
  · intro h1
    subst h1
    obtain ⟨l, rfl⟩ := List.length_eq_one.mp hlen
    rw [StreamGo.Collect, isMerge_singleton hout l rfl,
      ← isMerge_singleton hin l rfl]
    rfl

/-- Witness for C6: with one worker over `[1, 2]`, the run that forwards
both elements in order is a valid `Parallel` execution, and the theorem
yields both the multiset equality and exact order preservation. -/
theorem parallel_permutes_and_single_worker_preserves_order_witness :
    StreamGo.Parallel (StreamGo.NewStream ([1, 2] : List Int)) 1 [1, 2]
    ∧ Multiset.ofList (StreamGo.Collect ([1, 2] : List Int))
        = Multiset.ofList ([1, 2] : List Int)
    ∧ StreamGo.Collect ([1, 2] : List Int) = [1, 2] := by
  have hdone : StreamGo.IsMerge [([] : List Int)] [] :=
    StreamGo.IsMerge.done [[]] (by intro l hl; simpa using hl)
  have h2 : StreamGo.IsMerge [[2]] ([2] : List Int) :=
    StreamGo.IsMerge.step [[2]] ⟨0, by decide⟩ 2 [] [] rfl hdone
  have hmerge : StreamGo.IsMerge [[1, 2]] ([1, 2] : List Int) :=
    StreamGo.IsMerge.step [[1, 2]] ⟨0, by decide⟩ 1 [2] [2] rfl h2
  have hrun : StreamGo.Parallel (StreamGo.NewStream ([1, 2] : List Int)) 1 [1, 2] :=
    ⟨[[1, 2]], rfl, hmerge, hmerge⟩
  have h := parallel_permutes_and_single_worker_preserves_order
    ([1, 2] : List Int) [1, 2] 1 (by decide) hrun
  exact ⟨hrun, h.1, h.2 rfl⟩
